import Mathlib

/-!
# FreeNOS `lib/libposix/Runtime.cpp`

A shallow embedding of the per-process runtime bootstrap: the mount table
(`setupMappings`, `findMount`, `refreshMounts`), the heap set-up
(`setupHeap`), descriptor based mount lookup and the `argv` marshaling loop of
`_entry`, followed by the properties established about them.

Conventions.
* A character buffer is a `List Char`; every byte past the end of the list
  reads as NUL.  The C string held by a buffer is `cstr buf`, the bytes before
  the first NUL.
* The array `mounts[FILESYSTEM_MAXMOUNTS]` is a `List FileSystemMount`; its
  length is the array bound.
* Constants that come from headers outside `Runtime.cpp` are the fields of
  `Consts`.
-/

namespace FreeNOS

/-! ## Constants and C strings -/

/-- Constants taken from headers that are not part of `Runtime.cpp`. -/
structure Consts where
  PATH_MAX : Nat
  FILESYSTEM_MAXMOUNTS : Nat
  ROOTFS_PID : Nat
  MOUNTFS_PID : Nat
  PAGESIZE : Nat
  ARGV_COUNT : Nat
  ARGV_SIZE : Nat
  deriving Repr

/-- The value `ZERO` of `Macros.h`, also the "no owner" process id. -/
def ZERO : Nat := 0

/-- The terminating byte of a C string. -/
def NUL : Char := Char.ofNat 0

/-- Reading `buf[i]`: bytes past the end of the list are NUL. -/
def charAt (buf : List Char) (i : Nat) : Char := buf.getD i NUL

/-- The C string stored in a buffer: the bytes before the first NUL. -/
def cstr (buf : List Char) : List Char := buf.takeWhile (fun ch => ch != NUL)

/-- Modelled from the spec: `strlen` of libposix is not in the source file; it
is the number of bytes before the first NUL. -/
def strlen (buf : List Char) : Nat := (cstr buf).length

/-- Modelled from the spec: `strlcpy(dst, src, size)` of libposix is not in the
source file; it stores at most `size - 1` bytes of the string `src` followed
by a NUL (`size` is positive at every call site). The result is the new
content of `dst`. -/
def strlcpy (src : List Char) (size : Nat) : List Char := (cstr src).take (size - 1)

/-- Modelled from the spec: `strncmp(s1, s2, n)` of libposix is not in the
source file; it compares at most `n` bytes, stops after a common NUL, and
returns the difference of the first two bytes that differ. -/
def strncmp : List Char → List Char → Nat → Int
  | _, _, 0 => 0
  | s1, s2, n + 1 =>
    if charAt s1 0 ≠ charAt s2 0 then ((charAt s1 0).toNat : Int) - ((charAt s2 0).toNat : Int)
    else if charAt s1 0 = NUL then 0
    else strncmp s1.tail s2.tail n

/-- Modelled from the spec: `getcwd(buf, size)` of libposix is not in the
source file; it copies the current directory string into `buf`, which holds at
most `size - 1` bytes and the NUL. -/
def getcwd (currentDirectory : List Char) (size : Nat) : List Char :=
  (cstr currentDirectory).take (size - 1)

/-- Modelled from the spec: `snprintf(buf, size, "%s/%s", a, b)` of libposix is
not in the source file; it stores at most `size - 1` bytes of the formatted
text. The first argument is read before the buffer it shares is rewritten. -/
def snprintfJoin (size : Nat) (a b : List Char) : List Char :=
  (cstr a ++ '/' :: cstr b).take (size - 1)

/-- Modelled from the spec: `snprintf(buf, size, "/mount/%s", name)` of
libposix is not in the source file; it stores at most `size - 1` bytes. -/
def snprintfMount (size : Nat) (name : List Char) : List Char :=
  ("/mount/".toList ++ cstr name).take (size - 1)

/-! ## The mount table -/

/-- A `FileSystemMount` of `FileSystemMount.h`: path buffer, owner, options. -/
structure FileSystemMount where
  path : List Char
  procID : Nat
  options : Nat
  deriving DecidableEq, Repr

/-- An entry after `memset(.., 0, ..)`. -/
def zeroMount : FileSystemMount := { path := [], procID := 0, options := 0 }

/-- The first part of `findMount(const char *)`: the content of `tmp` after
the relative/absolute branch. -/
def resolveTmp (c : Consts) (currentDirectory path : List Char) : List Char :=
  if charAt path 0 ≠ '/' then
    snprintfJoin c.PATH_MAX (getcwd currentDirectory c.PATH_MAX) path
  else
    strlcpy path c.PATH_MAX

/-- The `for` loop of `findMount(const char *)`, from index `i` on; `rest` are
the entries `mounts[i..]`, `length` the length of the last match and `m` the
index of the entry `m` points to (`none` for `ZERO`). -/
def findMountLoop (tmp : List Char) :
    List FileSystemMount → Nat → Nat → Option Nat → Option Nat
  | [], _, _, m => m
  | e :: rest, i, length, m =>
    if charAt e.path 0 ≠ NUL then
      if strncmp tmp e.path (strlen e.path) = 0 ∧ strlen e.path > length then
        findMountLoop tmp rest (i + 1) (strlen e.path) (some i)
      else
        findMountLoop tmp rest (i + 1) length m
    else
      findMountLoop tmp rest (i + 1) length m

/-- The function `findMount(const char *path)`. -/
def findMount (c : Consts) (mounts : List FileSystemMount)
    (currentDirectory path : List Char) : Nat :=
  match findMountLoop (resolveTmp c currentDirectory path) mounts 0 0 none with
  | some i => (mounts.getD i zeroMount).procID
  | none => ZERO

/-- The function `setupMappings`, mount table part: `memset` of the whole table
followed by the two static entries. -/
def setupMounts (c : Consts) : List FileSystemMount :=
  let mounts := List.replicate c.FILESYSTEM_MAXMOUNTS zeroMount
  let mounts := mounts.modify (fun m => { m with path := strlcpy "/mount".toList c.PATH_MAX }) 0
  let mounts := mounts.modify (fun m => { m with path := strlcpy "/".toList c.PATH_MAX }) 1
  let mounts := mounts.modify (fun m => { m with procID := c.MOUNTFS_PID }) 0
  let mounts := mounts.modify (fun m => { m with options := ZERO }) 0
  let mounts := mounts.modify (fun m => { m with procID := c.ROOTFS_PID }) 1
  let mounts := mounts.modify (fun m => { m with options := ZERO }) 1
  mounts

/-! ## Refreshing the mount table -/

/-- The `d_type` of a `struct dirent`, as far as `refreshMounts` tells the
values apart. -/
inductive DType where
  | DT_DIR
  | DT_REG
  | DT_OTHER
  deriving DecidableEq, Repr

/-- A `struct dirent` as returned by `readdir`. -/
structure Dirent where
  d_name : List Char
  d_type : DType
  deriving DecidableEq, Repr

/-- Modelled from the spec: the filesystem behind `opendir`, `readdir`, `open`
and `read` is not in the source file. `opendir path` is `none` when the
directory cannot be opened and otherwise the entries `readdir` returns, in
enumeration order; `openFile path` is `none` when `open(path, O_RDONLY)` fails and
otherwise the content of the file. -/
structure FileSystem where
  opendir : List Char → Option (List Dirent)
  openFile : List Char → Option (List Char)

/-- Modelled from the spec: `read(fd, number, sizeof(number))` on a freshly
opened file returns its first bytes, at most `size` of them. -/
def read (content : List Char) (size : Nat) : List Char := content.take size

/-- Decimal digits at the start of a string, accumulated left to right. -/
def atoiDigits : List Char → Nat → Nat
  | [], acc => acc
  | ch :: rest, acc =>
    if ch.isDigit then atoiDigits rest (acc * 10 + (ch.toNat - '0'.toNat)) else acc

/-- Modelled from the spec: `atoi` of libposix is not in the source file; it
parses the decimal integer at the start of the string (after blanks and an
optional sign) and yields 0 when there is none. -/
def atoi (s : List Char) : Int :=
  match (cstr s).dropWhile (fun ch => ch == ' ') with
  | '-' :: rest => - (atoiDigits rest 0 : Int)
  | '+' :: rest => (atoiDigits rest 0 : Int)
  | rest => (atoiDigits rest 0 : Int)

/-- Storing a `pid_t` into the 32-bit unsigned `procID` field. -/
def toProcessID (pid : Int) : Nat := (pid % 4294967296).toNat

/-- The "append to the mounts table" loop of `refreshMounts`: the first entry
whose path is empty receives `procID` and then the path; the loop breaks. -/
def appendMount (c : Consts) (pid : Int) (src : List Char) :
    List FileSystemMount → List FileSystemMount
  | [] => []
  | e :: rest =>
    if charAt e.path 0 = NUL then
      { e with procID := toProcessID pid, path := strlcpy src c.PATH_MAX } :: rest
    else
      e :: appendMount c pid src rest

/-- The statement `MemoryBlock::set(&mounts[2], 0, sizeof(FileSystemMount) *
(FILESYSTEM_MAXMOUNTS-2))`. -/
def clearMounts (mounts : List FileSystemMount) : List FileSystemMount :=
  mounts.take 2 ++ List.replicate (mounts.length - 2) zeroMount

/-- Outcome of running `refreshMounts` with a bound on the recursion depth:
the call returned, or the bound was reached; either way with the mount table
as it stood at that moment. -/
inductive Run where
  | done (mounts : List FileSystemMount)
  | outOfFuel (mounts : List FileSystemMount)
  deriving DecidableEq, Repr

/-- The mount table at the end of a run. -/
def Run.mounts : Run → List FileSystemMount
  | .done m => m
  | .outOfFuel m => m

/-- Whether the call returned. -/
def Run.returned : Run → Bool
  | .done _ => true
  | .outOfFuel _ => false

/-- The `while ((dent = readdir(d)))` loop of `refreshMounts`. `recurse` is the
recursive call `refreshMounts(tmp)`. `tmp + 6` is `tmp.drop 6` (with
`PATH_MAX` of 8 or more `tmp` starts with the 7 bytes of `/mount/`), and
`number` holds the bytes `read` returned (fewer than 16 for an announcement,
so that the zeroed buffer terminates them). -/
def readdirLoop (c : Consts) (fs : FileSystem)
    (recurse : List Char → List FileSystemMount → Run) :
    List Dirent → List FileSystemMount → Run
  | [], mounts => .done mounts
  | dent :: rest, mounts =>
    let tmp := snprintfMount c.PATH_MAX dent.d_name
    match dent.d_type with
    | .DT_DIR =>
      if charAt dent.d_name 0 ≠ '.' then
        match recurse tmp mounts with
        | .done mounts => readdirLoop c fs recurse rest mounts
        | .outOfFuel mounts => .outOfFuel mounts
      else
        readdirLoop c fs recurse rest mounts
    | .DT_REG =>
      match fs.openFile tmp with
      | some content =>
        let number := read content 16
        if number.length > 0 then
          readdirLoop c fs recurse rest (appendMount c (atoi number) (tmp.drop 6) mounts)
        else
          readdirLoop c fs recurse rest mounts
      | none => readdirLoop c fs recurse rest mounts
    | .DT_OTHER => readdirLoop c fs recurse rest mounts

/-- The function `refreshMounts(const char *path)`; `path = none` is the NULL
argument of a top-level call, `pid` the result of `getpid()` and `fuel` the
bound on the depth of the recursion. -/
def refreshMounts (c : Consts) (fs : FileSystem) (pid : Nat) :
    Nat → Option (List Char) → List FileSystemMount → Run
  | 0, _, mounts => .outOfFuel mounts
  | fuel + 1, path, mounts =>
    if pid = c.ROOTFS_PID ∨ pid = c.MOUNTFS_PID then .done mounts
    else
      let dir := match path with
        | none => "/mount".toList
        | some p => p
      let mounts := match path with
        | none => clearMounts mounts
        | some _ => mounts
      match fs.opendir dir with
      | none => .done mounts
      | some dents =>
        readdirLoop c fs (fun tmp ms => refreshMounts c fs pid fuel (some tmp) ms) dents mounts

/-! ## An announcement tree as a filesystem -/

/-- A node of a directory tree: a regular file with its content or a
directory with its named children in enumeration order. -/
inductive Node where
  | file (content : List Char)
  | dir (children : List (List Char × Node))

/-- The child of a directory with the given name. -/
def Node.child : Node → List Char → Option Node
  | .file _, _ => none
  | .dir children, name => (children.find? (fun p => p.1 == name)).map (fun p => p.2)

/-- Following path components down from a node. -/
def Node.walk : Node → List (List Char) → Option Node
  | n, [] => some n
  | n, name :: rest =>
    match n.child name with
    | some n' => n'.walk rest
    | none => none

/-- Splitting a path at the slashes; `cur` is the component being read, in
reverse. Empty components are dropped. -/
def splitPath : List Char → List Char → List (List Char)
  | [], cur => if cur = [] then [] else [cur.reverse]
  | ch :: rest, cur =>
    if ch = '/' then
      (if cur = [] then splitPath rest [] else cur.reverse :: splitPath rest [])
    else splitPath rest (ch :: cur)

/-- The directory entry `readdir` reports for a child. -/
def Node.dirent (name : List Char) : Node → Dirent
  | .file _ => { d_name := name, d_type := .DT_REG }
  | .dir _ => { d_name := name, d_type := .DT_DIR }

/-- Modelled from the spec: the filesystem whose directory `/mount` is the
announcement tree `tree` and that holds nothing else. -/
def treeFS (tree : Node) : FileSystem :=
  let root := Node.dir [("mount".toList, tree)]
  { opendir := fun path =>
      match root.walk (splitPath (cstr path) []) with
      | some (.dir children) => some (children.map (fun p => Node.dirent p.1 p.2))
      | _ => none
    openFile := fun path =>
      match root.walk (splitPath (cstr path) []) with
      | some (.file content) => some content
      | _ => none }

/-! ## Inherited state -/

/-- Modelled from the spec: `FileDescriptor.h` is not in the source file; a
descriptor records the process that owns its mount, a position, and whether
it is open (the field `open` of the source, a keyword here). -/
structure FileDescriptor where
  mount : Nat
  position : Nat
  isOpen : Bool
  deriving DecidableEq, Repr

/-- A descriptor after `memset(.., 0, ..)`. -/
def zeroFileDescriptor : FileDescriptor := { mount := 0, position := 0, isOpen := false }

/-- The part of the `MemoryMap::UserArgs` range behind the argument page: the
current directory page and the file descriptor pages. -/
structure UserArgs where
  currentDirectory : List Char
  files : List FileDescriptor

/-- The globals of `Runtime.cpp` together with the shared range the pointers
`currentDirectory` and `files` refer to (`none` is the NULL pointer). -/
structure Runtime where
  mounts : List FileSystemMount
  currentDirectory : Option (List Char)
  files : Option (List FileDescriptor)

/-- The function `setupMappings`; `ppid` is the result of `getppid()` and
`region` the content of the shared range before the call. -/
def setupMappings (c : Consts) (ppid : Nat) (region : UserArgs) : Runtime :=
  let mounts := setupMounts c
  let currentDirectory := region.currentDirectory
  let files := region.files
  if ppid = 0 then
    { mounts := mounts
      currentDirectory := some "/".toList
      files := some (files.map (fun _ => zeroFileDescriptor)) }
  else
    { mounts := mounts
      currentDirectory := some currentDirectory
      files := some files }

/-- The function `findMount(int fildes)`. `none` stands for an access outside
the descriptor table, which the function does not guard against. -/
def findMountFd (files : Option (List FileDescriptor)) (fildes : Int) : Option Nat :=
  match files with
  | some table =>
    if 0 ≤ fildes ∧ fildes.toNat < table.length then
      let fd := table.getD fildes.toNat zeroFileDescriptor
      some (if fd.isOpen then fd.mount else ZERO)
    else none
  | none => some ZERO

/-! ## The heap -/

/-- A `Memory::Range` of the memory map: virtual base address and size. -/
structure Range where
  virt : Nat
  size : Nat
  deriving DecidableEq, Repr

/-- Modelled from the spec: `PageAllocator.h` is not in the source file; a page
allocator manages the range that starts at `base`. -/
structure PageAllocator where
  base : Nat
  size : Nat
  allocated : Nat
  deriving DecidableEq, Repr

/-- Modelled from the spec: the result code of `Allocator::allocate`. -/
inductive AllocResult where
  | Success
  | InvalidAddress
  | InvalidSize
  | OutOfMemory
  deriving DecidableEq, Repr

/-- What `setupHeap` leaves behind: the `PageAllocator` copy placed at
`parentAddr`, the `PoolAllocator` placed at `poolAddr` with its parent
pointer, and the pointer handed to `Allocator::setDefault` (`none` while no
default allocator is installed). -/
structure Heap where
  parentAddr : Nat
  parent : PageAllocator
  poolAddr : Nat
  poolParent : Nat
  defaultAllocator : Option Nat
  deriving DecidableEq, Repr

/-- The function `setupHeap`. `heap` is `map.range(MemoryMap::UserHeap)`,
`allocate` the method `PageAllocator::allocate` (its result code and the
allocator afterwards) and `sizeofPageAllocator` is `sizeof(PageAllocator)`. -/
def setupHeap (c : Consts) (heap : Range)
    (allocate : PageAllocator → Nat → AllocResult × PageAllocator)
    (sizeofPageAllocator : Nat) : Heap :=
  let alloc : PageAllocator := { base := heap.virt, size := heap.size, allocated := 0 }
  let sz := c.PAGESIZE * 4
  let alloc := (allocate alloc sz).2
  let heapAddr := alloc.base
  let parent := alloc
  let parentSize := sizeofPageAllocator
  let pool := heapAddr + parentSize
  { parentAddr := heapAddr
    parent := parent
    poolAddr := pool
    poolParent := heapAddr
    defaultAllocator := some pool }

/-! ## Program entry -/

/-- The `while (argc < ARGV_COUNT && *arguments)` loop of `_entry`. `mem` reads
the byte at an address, `argv i` is the pointer stored in `argv[i]`, and `fuel`
bounds the number of times the loop condition is evaluated; the result is
`(argc, argv)` when the loop is left. -/
def argvLoop (c : Consts) (mem : Nat → Nat) :
    Nat → Nat → Nat → (Nat → Nat) → Option (Nat × (Nat → Nat))
  | 0, _, _, _ => none
  | fuel + 1, argc, arguments, argv =>
    if argc < c.ARGV_COUNT ∧ mem arguments ≠ 0 then
      argvLoop c mem fuel (argc + 1) (arguments + c.ARGV_SIZE) (Function.update argv argc arguments)
    else
      some (argc, argv)

/-- The argument marshaling of `_entry`: `argc = 0`, `arguments` at the base
`virt` of the `UserArgs` range, then the loop; the result is what `main`
receives. `argv0` is the content of the fresh `argv` array, whose allocated
size is not part of the model. -/
def marshalArguments (c : Consts) (mem : Nat → Nat) (virt : Nat) (argv0 : Nat → Nat) :
    Option (Nat × (Nat → Nat)) :=
  argvLoop c mem (c.ARGV_COUNT + 1) 0 virt argv0

/-! ## Sample inputs -/

/-- Sample values of the constants, used to evaluate the definitions. -/
def sampleConsts : Consts :=
  { PATH_MAX := 64, FILESYSTEM_MAXMOUNTS := 16, ROOTFS_PID := 2, MOUNTFS_PID := 3,
    PAGESIZE := 4096, ARGV_COUNT := 32, ARGV_SIZE := 128 }

/-- The table of the resolution scenario: the root mount and `/mnt/data`. -/
def scenarioMounts : List FileSystemMount :=
  [{ path := "/".toList, procID := 1, options := 0 },
   { path := "/mnt/data".toList, procID := 7, options := 0 }]

/-- A page allocator method that reports an error and reserves nothing. -/
def failingAllocate : PageAllocator → Nat → AllocResult × PageAllocator :=
  fun alloc _ => (AllocResult.OutOfMemory, alloc)

/-- A heap range for evaluating `setupHeap`. -/
def sampleHeap : Range := { virt := 3221225472, size := 16777216 }

/-- A descriptor table with one closed and one open descriptor. -/
def sampleFiles : List FileDescriptor :=
  [{ mount := 5, position := 0, isOpen := false },
   { mount := 9, position := 3, isOpen := true }]

/-- An argument page holding two arguments: the first byte of slots 0 and 1 is
non-zero, every other byte reads as zero. -/
def sampleArgs (virt : Nat) : Nat → Nat :=
  fun addr => if addr = virt ∨ addr = virt + 128 then 97 else 0

/-- Sample constants with a table of four mounts. -/
def smallConsts : Consts :=
  { PATH_MAX := 64, FILESYSTEM_MAXMOUNTS := 4, ROOTFS_PID := 2, MOUNTFS_PID := 3,
    PAGESIZE := 4096, ARGV_COUNT := 32, ARGV_SIZE := 128 }

/-- The announcement tree of the refresh scenario: the file `/mount/usb/sda1`
with content `42`. -/
def scenarioTree : Node :=
  .dir [("usb".toList, .dir [("sda1".toList, .file "42".toList)])]

/-- An announcement tree with the single file `/mount/usb`, content `42`. -/
def flatTree : Node :=
  .dir [("usb".toList, .file "42".toList)]

/-- The name `mNN` of the announcement file with number `i`. -/
def fileName (i : Nat) : List Char :=
  ['m', Char.ofNat (48 + i / 10), Char.ofNat (48 + i % 10)]

/-- The announcement file with number `i`: its content is `i` in decimal. -/
def announcementFile (i : Nat) : List Char × Node :=
  (fileName i, .file [Char.ofNat (48 + i / 10), Char.ofNat (48 + i % 10)])

/-- The dynamic mount `refreshMounts` records for the file with number `i`. -/
def announcedMount (i : Nat) : FileSystemMount :=
  { path := '/' :: fileName i, procID := i, options := 0 }

/-- An announcement tree with the fifteen files `/mount/m01` to `/mount/m15`
followed by the directory `/mount/a`, whose only entry is the directory
`/mount/a/a`. -/
def cycleTree : Node :=
  .dir ((List.range 15).map (fun i => announcementFile (i + 1)) ++
    [("a".toList, .dir [("a".toList, .dir [])])])

/-- An announcement tree without entries. -/
def emptyTree : Node := .dir []

/-! ## Words of the specification -/

/-- The number of leading argument slots, among the first `ARGV_COUNT`, whose
first byte is non-zero. -/
def leadingArguments (c : Consts) (mem : Nat → Nat) (virt : Nat) : Nat :=
  ((List.range c.ARGV_COUNT).takeWhile
    (fun i => decide (mem (virt + i * c.ARGV_SIZE) ≠ 0))).length


/-- The resolved form of a path: the path itself when it starts with a slash,
otherwise the current directory, a slash and the path. -/
def resolved (currentDirectory path : List Char) : List Char :=
  if charAt path 0 = '/' then cstr path else cstr currentDirectory ++ '/' :: cstr path

/-- An entry matches a resolved path when it is non-empty and its stored path
is a byte-wise initial segment of the resolved path. -/
def Matches (r : List Char) (e : FileSystemMount) : Prop :=
  cstr e.path ≠ [] ∧ cstr e.path <+: r

/-- The test of the loop body of `findMount`, without the comparison of the
lengths: the entry is non-empty and `strncmp` finds it at the start of `tmp`. -/
def Hits (tmp : List Char) (e : FileSystemMount) : Prop :=
  charAt e.path 0 ≠ NUL ∧ strncmp tmp e.path (strlen e.path) = 0

/-- What holds of `length` and `m` in `findMount` once the entries `pre` have
been scanned: `m` points to the first of the longest hits among them. -/
def LoopInv (tmp : List Char) (pre : List FileSystemMount) (length : Nat) :
    Option Nat → Prop
  | none => length = 0 ∧ ∀ e ∈ pre, ¬ Hits tmp e
  | some j => ∃ e, pre[j]? = some e ∧ Hits tmp e ∧ strlen e.path = length ∧
      (∀ (k : Nat) (e' : FileSystemMount),
        pre[k]? = some e' → Hits tmp e' → strlen e'.path ≤ length) ∧
      (∀ (k : Nat) (e' : FileSystemMount),
        k < j → pre[k]? = some e' → Hits tmp e' → strlen e'.path < length)

/-- The static mount `mounts[0]` once `setupMappings` has run. -/
def mountfsEntry (c : Consts) : FileSystemMount :=
  { path := "/mount".toList, procID := c.MOUNTFS_PID, options := ZERO }

/-- The static mount `mounts[1]` once `setupMappings` has run. -/
def rootfsEntry (c : Consts) : FileSystemMount :=
  { path := "/".toList, procID := c.ROOTFS_PID, options := ZERO }

/-- A table that holds exactly the two static entries: every slot from index
2 on is zero, so its path is empty. -/
def staticTable (c : Consts) : List FileSystemMount :=
  mountfsEntry c :: rootfsEntry c :: List.replicate (c.FILESYSTEM_MAXMOUNTS - 2) zeroMount

/-- A directory stream that brings no announcement: `opendir` fails, or every
entry it returns is a dot directory (none at all for an empty directory). -/
def NoAnnouncements (fs : FileSystem) : Prop :=
  match fs.opendir "/mount".toList with
  | none => True
  | some dents => ∀ d ∈ dents, d.d_type = DType.DT_DIR ∧ charAt d.d_name 0 = '.'

/-- Every stored path of the table is empty or starts with a slash, as every
path written by `setupMappings` and `refreshMounts` does. -/
def SlashLed (mounts : List FileSystemMount) : Prop :=
  ∀ e ∈ mounts, charAt e.path 0 = NUL ∨ charAt e.path 0 = '/'

/-- The mount tables a process with id `pid` can hold: the one `setupMappings`
builds, and any table a returning call of `refreshMounts` (any argument, any
filesystem state) makes from one of them. -/
inductive Reachable (c : Consts) (pid : Nat) : List FileSystemMount → Prop where
  | setup : Reachable c pid (setupMounts c)
  | refresh {mounts mounts' : List FileSystemMount} (fs : FileSystem) (fuel : Nat)
      (path : Option (List Char)) :
      Reachable c pid mounts →
      refreshMounts c fs pid fuel path mounts = .done mounts' →
      Reachable c pid mounts'

/-! ## C strings -/

theorem cstr_nil : cstr [] = [] := rfl

theorem cstr_cons (ch : Char) (l : List Char) :
    cstr (ch :: l) = if ch = NUL then [] else ch :: cstr l := by
  by_cases h : ch = NUL <;> simp [cstr, List.takeWhile_cons, h]

theorem charAt_zero_nil : charAt [] 0 = NUL := rfl

theorem charAt_zero_cons (ch : Char) (l : List Char) : charAt (ch :: l) 0 = ch := rfl

theorem cstr_ne_nul (l : List Char) : ∀ ch ∈ cstr l, ch ≠ NUL := by
  induction l with
  | nil => simp [cstr_nil]
  | cons a l ih =>
    rw [cstr_cons]
    by_cases h : a = NUL
    · simp [h]
    · simp only [h, if_false, List.mem_cons]
      rintro ch (rfl | hch)
      · exact h
      · exact ih ch hch

theorem cstr_of_ne_nul (l : List Char) (h : ∀ ch ∈ l, ch ≠ NUL) : cstr l = l := by
  induction l with
  | nil => rfl
  | cons a l ih =>
    rw [cstr_cons, if_neg (h a (List.mem_cons_self _ _)),
      ih (fun ch hch => h ch (List.mem_cons_of_mem _ hch))]

theorem cstr_cstr (l : List Char) : cstr (cstr l) = cstr l :=
  cstr_of_ne_nul _ (cstr_ne_nul l)

theorem charAt_zero_ne_nul_iff (l : List Char) : charAt l 0 ≠ NUL ↔ cstr l ≠ [] := by
  cases l with
  | nil => simp [charAt_zero_nil, cstr_nil]
  | cons a l =>
    rw [charAt_zero_cons, cstr_cons]
    by_cases h : a = NUL <;> simp [h]

theorem char_sub_ne_zero (a b : Char) (h : a ≠ b) : (a.toNat : Int) - (b.toNat : Int) ≠ 0 := by
  intro h0
  apply h
  have : a.toNat = b.toNat := by omega
  rw [← Char.ofNat_toNat a, ← Char.ofNat_toNat b, this]

theorem strncmp_eq_zero_iff (p : List Char) :
    ∀ s : List Char, strncmp s p (strlen p) = 0 ↔ (cstr s).take (strlen p) = cstr p := by
  induction p with
  | nil => intro s; simp [strlen, cstr_nil, strncmp]
  | cons ch p ih =>
    intro s
    by_cases hch : ch = NUL
    · simp [strlen, cstr_cons, hch, strncmp]
    · have hlen : strlen (ch :: p) = strlen p + 1 := by simp [strlen, cstr_cons, hch]
      rw [hlen, strncmp, charAt_zero_cons, cstr_cons ch p, if_neg hch]
      cases s with
      | nil =>
        rw [charAt_zero_nil, if_pos (Ne.symm hch)]
        simp [cstr_nil, char_sub_ne_zero _ _ (Ne.symm hch)]
      | cons a s =>
        rw [charAt_zero_cons, cstr_cons]
        by_cases hab : a = ch
        · subst hab
          simp only [ne_eq, not_true_eq_false, if_false, hch, List.tail_cons, List.take_succ_cons,
            List.cons.injEq, true_and]
          exact ih s
        · rw [if_pos hab]
          by_cases ha : a = NUL
          · simp [ha, char_sub_ne_zero _ _ (ha ▸ hab)]
          · simp [ha, hab, char_sub_ne_zero _ _ hab]

/-! ## `findMount` -/

theorem strlen_pos_of_hits {tmp : List Char} {e : FileSystemMount} (h : Hits tmp e) :
    0 < strlen e.path := by
  have := (charAt_zero_ne_nul_iff e.path).1 h.1
  exact List.length_pos.2 this

theorem getElem?_snoc_cases {α : Type} (pre : List α) (e : α) (k : Nat) (x : α)
    (h : (pre ++ [e])[k]? = some x) : pre[k]? = some x ∨ (k = pre.length ∧ x = e) := by
  by_cases hk : k < pre.length
  · rw [List.getElem?_append_left hk] at h
    exact Or.inl h
  · rw [List.getElem?_append_right (Nat.le_of_not_lt hk)] at h
    right
    have hk0 : k - pre.length = 0 := by
      by_contra hne
      obtain ⟨n, hn⟩ := Nat.exists_eq_succ_of_ne_zero hne
      rw [hn] at h
      simp at h
    rw [hk0] at h
    simp at h
    exact ⟨by omega, h.symm⟩

theorem loopInv_skip {tmp : List Char} {pre : List FileSystemMount} {length : Nat}
    {m : Option Nat} {e : FileSystemMount} (hinv : LoopInv tmp pre length m)
    (hno : ¬ (Hits tmp e ∧ strlen e.path > length)) :
    LoopInv tmp (pre ++ [e]) length m := by
  cases m with
  | none =>
    obtain ⟨h0, hall⟩ := hinv
    refine ⟨h0, ?_⟩
    intro x hx hhit
    rcases List.mem_append.1 hx with hx | hx
    · exact hall x hx hhit
    · have hxe : x = e := by simpa using hx
      subst hxe
      exact hno ⟨hhit, by have := strlen_pos_of_hits hhit; omega⟩
  | some j =>
    obtain ⟨x, hx, hhit, hlen, hmax, hfirst⟩ := hinv
    have hj : j < pre.length := by
      by_contra hge
      rw [List.getElem?_eq_none (Nat.le_of_not_lt hge)] at hx
      exact Option.noConfusion hx
    refine ⟨x, ?_, hhit, hlen, ?_, ?_⟩
    · rw [List.getElem?_append_left hj]; exact hx
    · intro k y hy hyhit
      rcases getElem?_snoc_cases pre e k y hy with hy | ⟨_, rfl⟩
      · exact hmax k y hy hyhit
      · by_contra hgt
        exact hno ⟨hyhit, by omega⟩
    · intro k y hkj hy hyhit
      rcases getElem?_snoc_cases pre e k y hy with hy | ⟨hk, _⟩
      · exact hfirst k y hkj hy hyhit
      · omega

theorem loopInv_take {tmp : List Char} {pre : List FileSystemMount} {length : Nat}
    {m : Option Nat} {e : FileSystemMount} (hinv : LoopInv tmp pre length m)
    (hhit : Hits tmp e) (hgt : strlen e.path > length) :
    LoopInv tmp (pre ++ [e]) (strlen e.path) (some pre.length) := by
  have hold : ∀ (k : Nat) (y : FileSystemMount),
      pre[k]? = some y → Hits tmp y → strlen y.path ≤ length := by
    cases m with
    | none =>
      intro k y hy hyhit
      exact absurd hyhit (hinv.2 y (List.getElem?_mem hy))
    | some j =>
      obtain ⟨_, _, _, _, hmax, _⟩ := hinv
      exact hmax
  refine ⟨e, by simp, hhit, rfl, ?_, ?_⟩
  · intro k y hy hyhit
    rcases getElem?_snoc_cases pre e k y hy with hy | ⟨_, rfl⟩
    · have := hold k y hy hyhit; omega
    · exact Nat.le_refl _
  · intro k y hk hy hyhit
    rcases getElem?_snoc_cases pre e k y hy with hy | ⟨hk', _⟩
    · have := hold k y hy hyhit; omega
    · omega

theorem findMountLoop_inv (tmp : List Char) :
    ∀ (rest pre : List FileSystemMount) (length : Nat) (m : Option Nat),
      LoopInv tmp pre length m →
      ∃ length', LoopInv tmp (pre ++ rest) length'
        (findMountLoop tmp rest pre.length length m) := by
  intro rest
  induction rest with
  | nil =>
    intro pre length m h
    exact ⟨length, by simpa [findMountLoop] using h⟩
  | cons e rest ih =>
    intro pre length m h
    have hlen : (pre ++ [e]).length = pre.length + 1 := by simp
    have happ : pre ++ e :: rest = (pre ++ [e]) ++ rest := by simp
    rw [happ]
    by_cases hc : Hits tmp e ∧ strlen e.path > length
    · have hstep : findMountLoop tmp (e :: rest) pre.length length m =
          findMountLoop tmp rest (pre.length + 1) (strlen e.path) (some pre.length) := by
        rw [findMountLoop, if_pos hc.1.1, if_pos ⟨hc.1.2, hc.2⟩]
      rw [hstep, ← hlen]
      exact ih _ _ _ (loopInv_take h hc.1 hc.2)
    · have hstep : findMountLoop tmp (e :: rest) pre.length length m =
          findMountLoop tmp rest (pre.length + 1) length m := by
        rw [findMountLoop]
        by_cases h1 : charAt e.path 0 ≠ NUL
        · rw [if_pos h1, if_neg]
          rintro ⟨h2, h3⟩
          exact hc ⟨⟨h1, h2⟩, h3⟩
        · rw [if_neg h1]
      rw [hstep, ← hlen]
      exact ih _ _ _ (loopInv_skip h hc)

theorem take_take_append {α : Type} (X Y : List α) :
    ∀ k : Nat, ((X.take k) ++ Y).take k = (X ++ Y).take k := by
  induction X with
  | nil => intro k; simp
  | cons a X ih =>
    intro k
    cases k with
    | zero => simp
    | succ k => simp [ih k]

theorem take_ne_nul (l : List Char) (k : Nat) (h : ∀ ch ∈ l, ch ≠ NUL) :
    ∀ ch ∈ l.take k, ch ≠ NUL :=
  fun ch hch => h ch (List.mem_of_mem_take hch)

theorem slash_ne_nul : '/' ≠ NUL := by decide

theorem resolved_ne_nul (currentDirectory path : List Char) :
    ∀ ch ∈ resolved currentDirectory path, ch ≠ NUL := by
  intro ch hch
  unfold resolved at hch
  split at hch
  · exact cstr_ne_nul _ ch hch
  · rcases List.mem_append.1 hch with h | h
    · exact cstr_ne_nul _ ch h
    · rcases List.mem_cons.1 h with h | h
      · rw [h]; exact slash_ne_nul
      · exact cstr_ne_nul _ ch h

theorem resolveTmp_eq (c : Consts) (currentDirectory path : List Char) :
    resolveTmp c currentDirectory path =
      (resolved currentDirectory path).take (c.PATH_MAX - 1) := by
  unfold resolveTmp resolved
  by_cases h : charAt path 0 = '/'
  · simp [h, strlcpy]
  · simp only [ne_eq, h, not_false_eq_true, if_true, if_false, snprintfJoin, getcwd]
    rw [cstr_of_ne_nul _ (take_ne_nul _ _ (cstr_ne_nul currentDirectory))]
    exact take_take_append _ _ _

theorem cstr_resolveTmp (c : Consts) (currentDirectory path : List Char) :
    cstr (resolveTmp c currentDirectory path) = resolveTmp c currentDirectory path := by
  rw [resolveTmp_eq]
  exact cstr_of_ne_nul _ (take_ne_nul _ _ (resolved_ne_nul currentDirectory path))

theorem isInitial_iff_take (p r : List Char) : p <+: r ↔ r.take p.length = p := by
  constructor
  · rintro ⟨t, rfl⟩
    simp
  · intro h
    have hsplit := List.take_append_drop p.length r
    rw [h] at hsplit
    exact ⟨r.drop p.length, hsplit⟩

theorem hits_iff_matches (c : Consts) (currentDirectory path : List Char)
    (e : FileSystemMount) (hfit : strlen e.path < c.PATH_MAX) :
    Hits (resolveTmp c currentDirectory path) e ↔
      Matches (resolved currentDirectory path) e := by
  unfold Hits Matches
  rw [charAt_zero_ne_nul_iff, strncmp_eq_zero_iff, cstr_resolveTmp, resolveTmp_eq,
    List.take_take, isInitial_iff_take]
  have hmin : min (strlen e.path) (c.PATH_MAX - 1) = (cstr e.path).length := by
    unfold strlen at hfit ⊢
    omega
  rw [hmin]

/-- C1. `findMount(path)` returns the owner of the non-empty entry whose stored
path is the longest byte-wise initial segment of the resolved path (the path
itself when absolute, else current directory, slash and path), the first such
entry in index order when several share the greatest length, and `ZERO` when
no non-empty entry matches. Every stored path fits its `PATH_MAX` buffer. -/
theorem findMount_longest_match (c : Consts) (mounts : List FileSystemMount)
    (currentDirectory path : List Char)
    (hfit : ∀ e ∈ mounts, strlen e.path < c.PATH_MAX) :
    (∃ (i : Nat) (e : FileSystemMount), mounts[i]? = some e ∧
        Matches (resolved currentDirectory path) e ∧
        findMount c mounts currentDirectory path = e.procID ∧
        (∀ (j : Nat) (e' : FileSystemMount), mounts[j]? = some e' →
          Matches (resolved currentDirectory path) e' →
          (cstr e'.path).length ≤ (cstr e.path).length) ∧
        (∀ (j : Nat) (e' : FileSystemMount), j < i → mounts[j]? = some e' →
          Matches (resolved currentDirectory path) e' →
          (cstr e'.path).length < (cstr e.path).length)) ∨
    ((∀ e ∈ mounts, ¬ Matches (resolved currentDirectory path) e) ∧
      findMount c mounts currentDirectory path = ZERO) := by
  have hinv := findMountLoop_inv (resolveTmp c currentDirectory path) mounts [] 0 none
    ⟨rfl, by simp⟩
  obtain ⟨len, hinv⟩ := hinv
  simp only [List.nil_append, List.length_nil] at hinv
  unfold findMount
  cases hm : findMountLoop (resolveTmp c currentDirectory path) mounts 0 0 none with
  | none =>
    rw [hm] at hinv
    right
    refine ⟨?_, rfl⟩
    intro e he hmatch
    exact hinv.2 e he ((hits_iff_matches c _ _ e (hfit e he)).2 hmatch)
  | some i =>
    rw [hm] at hinv
    obtain ⟨e, hie, hhit, hlen, hmax, hfirst⟩ := hinv
    left
    refine ⟨i, e, hie, (hits_iff_matches c _ _ e (hfit e (List.getElem?_mem hie))).1 hhit,
      ?_, ?_, ?_⟩
    · have hi : i < mounts.length := by
        by_contra hge
        rw [List.getElem?_eq_none (Nat.le_of_not_lt hge)] at hie
        exact Option.noConfusion hie
      have : mounts.getD i zeroMount = e := by
        rw [List.getD_eq_getElem?_getD, hie]; rfl
      simp only [this]
    · intro j e' hj hmatch
      have := hmax j e' hj
        ((hits_iff_matches c _ _ e' (hfit e' (List.getElem?_mem hj))).2 hmatch)
      unfold strlen at this hlen
      omega
    · intro j e' hji hj hmatch
      have := hfirst j e' hji hj
        ((hits_iff_matches c _ _ e' (hfit e' (List.getElem?_mem hj))).2 hmatch)
      unfold strlen at this hlen
      omega

/-- C1 on the resolution scenario: table `/` and `/mnt/data`, current
directory `/mnt`, path `data/x`. -/
theorem findMount_longest_match_witness :
    (∀ e ∈ scenarioMounts, strlen e.path < sampleConsts.PATH_MAX) ∧
    ((∃ (i : Nat) (e : FileSystemMount), scenarioMounts[i]? = some e ∧
        Matches (resolved "/mnt".toList "data/x".toList) e ∧
        findMount sampleConsts scenarioMounts "/mnt".toList "data/x".toList = e.procID ∧
        (∀ (j : Nat) (e' : FileSystemMount), scenarioMounts[j]? = some e' →
          Matches (resolved "/mnt".toList "data/x".toList) e' →
          (cstr e'.path).length ≤ (cstr e.path).length) ∧
        (∀ (j : Nat) (e' : FileSystemMount), j < i → scenarioMounts[j]? = some e' →
          Matches (resolved "/mnt".toList "data/x".toList) e' →
          (cstr e'.path).length < (cstr e.path).length)) ∨
    ((∀ e ∈ scenarioMounts, ¬ Matches (resolved "/mnt".toList "data/x".toList) e) ∧
      findMount sampleConsts scenarioMounts "/mnt".toList "data/x".toList = ZERO)) :=
  ⟨by decide,
    findMount_longest_match sampleConsts scenarioMounts "/mnt".toList "data/x".toList
      (by decide)⟩

theorem findMountLoop_none_of_no_hits (tmp : List Char) (mounts : List FileSystemMount)
    (h : ∀ e ∈ mounts, ¬ Hits tmp e) : findMountLoop tmp mounts 0 0 none = none := by
  obtain ⟨len, hinv⟩ := findMountLoop_inv tmp mounts [] 0 none ⟨rfl, by simp⟩
  simp only [List.nil_append, List.length_nil] at hinv
  cases hm : findMountLoop tmp mounts 0 0 none with
  | none => rfl
  | some i =>
    rw [hm] at hinv
    obtain ⟨e, hie, hhit, _⟩ := hinv
    exact absurd hhit (h e (List.getElem?_mem hie))

theorem not_hits_of_heads (tmp : List Char) (e : FileSystemMount)
    (htmp : charAt tmp 0 ≠ '/') (he : charAt e.path 0 = '/') : ¬ Hits tmp e := by
  rintro ⟨_, hcmp⟩
  have hpos : 0 < strlen e.path := by
    apply List.length_pos.2
    rw [← charAt_zero_ne_nul_iff, he]
    exact slash_ne_nul
  obtain ⟨n, hn⟩ := Nat.exists_eq_succ_of_ne_zero (Nat.pos_iff_ne_zero.1 hpos)
  rw [hn, strncmp, he, if_pos htmp] at hcmp
  exact char_sub_ne_zero _ _ htmp hcmp

theorem charAt_take_cons_ne (ch : Char) (rest : List Char) (k : Nat) (h : ch ≠ '/') :
    charAt ((ch :: rest).take k) 0 ≠ '/' := by
  cases k with
  | zero => rw [List.take_zero, charAt_zero_nil]; exact Ne.symm slash_ne_nul
  | succ k => rw [List.take_succ_cons, charAt_zero_cons]; exact h

theorem charAt_zero_cstr (l : List Char) : charAt (cstr l) 0 = charAt l 0 := by
  cases l with
  | nil => rfl
  | cons a l =>
    rw [cstr_cons, charAt_zero_cons]
    by_cases h : a = NUL
    · rw [if_pos h, charAt_zero_nil, h]
    · rw [if_neg h, charAt_zero_cons]

theorem charAt_zero_append (a b : List Char) (h : charAt a 0 ≠ NUL) :
    charAt (a ++ b) 0 = charAt a 0 := by
  cases a with
  | nil => exact absurd charAt_zero_nil h
  | cons x a => rfl

theorem joined_ne_nul (currentDirectory path : List Char) :
    ∀ ch ∈ cstr currentDirectory ++ '/' :: cstr path, ch ≠ NUL := by
  intro ch hch
  rcases List.mem_append.1 hch with h | h
  · exact cstr_ne_nul _ ch h
  · rcases List.mem_cons.1 h with h | h
    · rw [h]; exact slash_ne_nul
    · exact cstr_ne_nul _ ch h

theorem charAt_zero_joined (currentDirectory path : List Char) :
    charAt (cstr currentDirectory ++ '/' :: cstr path) 0 =
      if charAt currentDirectory 0 = NUL then '/' else charAt currentDirectory 0 := by
  by_cases h : charAt currentDirectory 0 = NUL
  · have hnil : cstr currentDirectory = [] := by
      by_contra hne
      exact (charAt_zero_ne_nul_iff _).2 hne h
    rw [if_pos h, hnil]
    rfl
  · rw [if_neg h, charAt_zero_append _ _ (by rw [charAt_zero_cstr]; exact h), charAt_zero_cstr]

/-- For a relative path, `findMount` of the path and of the concatenation of
the current directory, a slash and the path agree when the current directory
is empty or starts with a slash, and also when every stored path of the table
is empty or starts with a slash. -/
theorem findMount_joined_of_heads (c : Consts) (mounts : List FileSystemMount)
    (currentDirectory path : List Char) (hrel : charAt path 0 ≠ '/')
    (h : charAt currentDirectory 0 = NUL ∨ charAt currentDirectory 0 = '/' ∨
      ∀ e ∈ mounts, charAt e.path 0 = NUL ∨ charAt e.path 0 = '/') :
    findMount c mounts currentDirectory path =
      findMount c mounts currentDirectory (cstr currentDirectory ++ '/' :: cstr path) := by
  have hleft : resolved currentDirectory path = cstr currentDirectory ++ '/' :: cstr path := by
    unfold resolved
    rw [if_neg hrel]
  by_cases habs : charAt currentDirectory 0 = NUL ∨ charAt currentDirectory 0 = '/'
  · have hhead : charAt (cstr currentDirectory ++ '/' :: cstr path) 0 = '/' := by
      rw [charAt_zero_joined]
      rcases habs with h0 | h0
      · rw [if_pos h0]
      · rw [if_neg (by rw [h0]; exact slash_ne_nul), h0]
    have hright : resolved currentDirectory (cstr currentDirectory ++ '/' :: cstr path) =
        cstr currentDirectory ++ '/' :: cstr path := by
      unfold resolved
      rw [if_pos hhead, cstr_of_ne_nul _ (joined_ne_nul currentDirectory path)]
    unfold findMount
    rw [resolveTmp_eq, resolveTmp_eq, hleft, hright]
  · have hmounts : ∀ e ∈ mounts, charAt e.path 0 = NUL ∨ charAt e.path 0 = '/' := by
      rcases h with h | h | h
      · exact absurd (Or.inl h) habs
      · exact absurd (Or.inr h) habs
      · exact h
    have hnul : charAt currentDirectory 0 ≠ NUL := fun h0 => habs (Or.inl h0)
    have hslash : charAt currentDirectory 0 ≠ '/' := fun h0 => habs (Or.inr h0)
    have hcons : ∃ rest, cstr currentDirectory = charAt currentDirectory 0 :: rest := by
      cases hcd : currentDirectory with
      | nil => rw [hcd] at hnul; exact absurd charAt_zero_nil hnul
      | cons a l =>
        rw [hcd, charAt_zero_cons] at hnul
        exact ⟨cstr l, by rw [cstr_cons, if_neg hnul, charAt_zero_cons]⟩
    obtain ⟨rest, hrest⟩ := hcons
    have hnone : ∀ tail : List Char, findMountLoop
        ((cstr currentDirectory ++ tail).take (c.PATH_MAX - 1)) mounts 0 0 none = none := by
      intro tail
      apply findMountLoop_none_of_no_hits
      intro e he hhit
      rcases hmounts e he with h0 | h0
      · exact hhit.1 h0
      · refine not_hits_of_heads _ e ?_ h0 hhit
        rw [hrest, List.cons_append]
        exact charAt_take_cons_ne _ _ _ hslash
    have hhead : charAt (cstr currentDirectory ++ '/' :: cstr path) 0 ≠ '/' := by
      rw [charAt_zero_joined, if_neg hnul]
      exact hslash
    have hright : resolved currentDirectory (cstr currentDirectory ++ '/' :: cstr path) =
        cstr currentDirectory ++ '/' :: cstr (cstr currentDirectory ++ '/' :: cstr path) := by
      unfold resolved
      rw [if_neg hhead]
    unfold findMount
    rw [resolveTmp_eq, resolveTmp_eq, hleft, hright, hnone, hnone]

/-! ## `setupHeap` -/

/-- C4, as stated, fails: when `allocate` reports `OutOfMemory`, `setupHeap`
still places the pool allocator behind the page allocator copy and installs it
as the default allocator. -/
theorem setupHeap_failure_counterexample :
    (failingAllocate { base := sampleHeap.virt, size := sampleHeap.size, allocated := 0 }
        (sampleConsts.PAGESIZE * 4)).1 ≠ AllocResult.Success ∧
    (setupHeap sampleConsts sampleHeap failingAllocate 24).defaultAllocator =
      some (sampleHeap.virt + 24) ∧
    (setupHeap sampleConsts sampleHeap failingAllocate 24).defaultAllocator ≠ none := by
  decide

/-- C4, amended. `setupHeap` does not look at the result of the reservation of
4 pages: whatever `allocate` reports, it places the page allocator copy at the
base of the allocator, the pool allocator right behind it with that copy as
its parent, and installs the pool allocator as the default allocator. -/
theorem setupHeap_always_installs (c : Consts) (heap : Range)
    (allocate : PageAllocator → Nat → AllocResult × PageAllocator)
    (sizeofPageAllocator : Nat) :
    (setupHeap c heap allocate sizeofPageAllocator).parentAddr =
      (allocate { base := heap.virt, size := heap.size, allocated := 0 }
        (c.PAGESIZE * 4)).2.base ∧
    (setupHeap c heap allocate sizeofPageAllocator).poolAddr =
      (setupHeap c heap allocate sizeofPageAllocator).parentAddr + sizeofPageAllocator ∧
    (setupHeap c heap allocate sizeofPageAllocator).poolParent =
      (setupHeap c heap allocate sizeofPageAllocator).parentAddr ∧
    (setupHeap c heap allocate sizeofPageAllocator).defaultAllocator =
      some (setupHeap c heap allocate sizeofPageAllocator).poolAddr :=
  ⟨rfl, rfl, rfl, rfl⟩

/-! ## `setupMappings` and `findMount(int)` -/

/-- C8. Whatever the shared region held before, `setupMappings` in a root
process (`getppid() == 0`) leaves the current directory equal to `/` and a
descriptor table of the same size in which every descriptor is zero, hence
not open. -/
theorem setupMappings_root (c : Consts) (region : UserArgs) :
    (setupMappings c 0 region).currentDirectory = some "/".toList ∧
    ∃ files, (setupMappings c 0 region).files = some files ∧
      files.length = region.files.length ∧
      ∀ fd ∈ files, fd = zeroFileDescriptor ∧ fd.isOpen = false := by
  refine ⟨rfl, region.files.map (fun _ => zeroFileDescriptor), rfl, by simp, ?_⟩
  intro fd hfd
  obtain ⟨_, _, rfl⟩ := List.mem_map.1 hfd
  exact ⟨rfl, rfl⟩

/-- C9. `findMount(fd)` returns `ZERO` when the table pointer is NULL; for a
descriptor inside the table it returns `ZERO` when the descriptor is not open
and the recorded mount otherwise. -/
theorem findMountFd_cases (table : List FileDescriptor) (fildes : Nat) (other : Int)
    (h : fildes < table.length) :
    findMountFd none other = some ZERO ∧
    (table[fildes].isOpen = false → findMountFd (some table) (fildes : Int) = some ZERO) ∧
    (table[fildes].isOpen = true →
      findMountFd (some table) (fildes : Int) = some table[fildes].mount) := by
  have hget : table.getD fildes zeroFileDescriptor = table[fildes] := by
    rw [List.getD_eq_getElem?_getD, List.getElem?_eq_getElem h]; rfl
  refine ⟨rfl, ?_, ?_⟩
  · intro hclosed
    unfold findMountFd
    simp only [Int.toNat_ofNat, hget, hclosed]
    rw [if_pos ⟨Int.ofNat_nonneg _, h⟩]
    rfl
  · intro hopen
    unfold findMountFd
    simp only [Int.toNat_ofNat, hget, hopen]
    rw [if_pos ⟨Int.ofNat_nonneg _, h⟩]
    rfl

/-- C9 at a table with a closed descriptor 0 and an open descriptor 1. -/
theorem findMountFd_cases_witness :
    findMountFd none 1 = some ZERO ∧
    (sampleFiles[1].isOpen = false → findMountFd (some sampleFiles) ((1 : Nat) : Int) = some ZERO) ∧
    (sampleFiles[1].isOpen = true →
      findMountFd (some sampleFiles) ((1 : Nat) : Int) = some sampleFiles[1].mount) :=
  findMountFd_cases sampleFiles 1 1 (by decide)

/-! ## The `argv` loop of `_entry` -/

theorem argvLoop_spec (c : Consts) (mem : Nat → Nat) (virt : Nat) :
    ∀ (n k : Nat) (argv : Nat → Nat), k + n = c.ARGV_COUNT →
      ∃ (argc : Nat) (argv' : Nat → Nat),
        argvLoop c mem (n + 1) k (virt + k * c.ARGV_SIZE) argv = some (argc, argv') ∧
        argc = k + ((List.range' k n).takeWhile
          (fun i => decide (mem (virt + i * c.ARGV_SIZE) ≠ 0))).length ∧
        argc ≤ c.ARGV_COUNT ∧
        (∀ i, k ≤ i → i < argc →
          argv' i = virt + i * c.ARGV_SIZE ∧ mem (virt + i * c.ARGV_SIZE) ≠ 0) ∧
        (argc = c.ARGV_COUNT ∨ mem (virt + argc * c.ARGV_SIZE) = 0) ∧
        (∀ i, (i < k ∨ argc ≤ i) → argv' i = argv i) := by
  intro n
  induction n with
  | zero =>
    intro k argv hk
    refine ⟨k, argv, ?_, by simp, by omega, ?_, Or.inl (by omega), fun _ _ => rfl⟩
    · rw [argvLoop, if_neg]
      rintro ⟨hlt, _⟩
      omega
    · intro i h1 h2
      omega
  | succ n ih =>
    intro k argv hk
    by_cases hmem : mem (virt + k * c.ARGV_SIZE) ≠ 0
    · obtain ⟨argc, argv', hrun, hcount, hle, hset, hstop, hsame⟩ :=
        ih (k + 1) (Function.update argv k (virt + k * c.ARGV_SIZE)) (by omega)
      have haddr : virt + k * c.ARGV_SIZE + c.ARGV_SIZE = virt + (k + 1) * c.ARGV_SIZE := by
        rw [Nat.add_mul, Nat.one_mul, Nat.add_assoc]
      refine ⟨argc, argv', ?_, ?_, hle, ?_, hstop, ?_⟩
      · rw [argvLoop, if_pos ⟨by omega, hmem⟩, haddr]
        exact hrun
      · rw [hcount, List.range'_succ, List.takeWhile_cons]
        have hzero : ¬ mem (virt + k * c.ARGV_SIZE) = 0 := hmem
        simp only [ne_eq, hzero, not_false_eq_true, decide_True, if_true, List.length_cons]
        omega
      · intro i h1 h2
        by_cases hik : i = k
        · subst hik
          rw [hsame i (Or.inl (Nat.lt_succ_self i)), Function.update_same]
          exact ⟨rfl, hmem⟩
        · exact hset i (by omega) h2
      · intro i hi
        have hge : k + 1 ≤ argc := by omega
        rw [hsame i (by omega), Function.update_noteq (by omega)]
    · have hzero : mem (virt + k * c.ARGV_SIZE) = 0 := by
        by_contra hne
        exact hmem hne
      refine ⟨k, argv, ?_, ?_, by omega, ?_, Or.inr hzero, fun _ _ => rfl⟩
      · rw [argvLoop, if_neg]
        rintro ⟨_, hne⟩
        exact hne hzero
      · rw [List.range'_succ, List.takeWhile_cons]
        simp [hzero]
      · intro i h1 h2
        omega

theorem marshalArguments_sample :
    (marshalArguments sampleConsts (sampleArgs 4096) 4096 (fun _ => 0)).map
      (fun r => (r.1, r.2 0, r.2 1, r.2 2)) = some (2, 4096, 4224, 0) := by
  decide

/-- C10. The marshaling loop of `_entry` always leaves the loop, with `argc`
equal to the number of leading `ARGV_SIZE`-byte slots (among the first
`ARGV_COUNT`) whose first byte is non-zero; `argc` is at most `ARGV_COUNT`,
every `argv[i]` with `i < argc` is the start of slot `i` and that slot is a
non-empty argument, the loop stopped at the maximum count or at an empty
argument, and no other element of `argv` was written. -/
theorem marshalArguments_spec (c : Consts) (mem : Nat → Nat) (virt : Nat)
    (argv0 : Nat → Nat) :
    ∃ (argc : Nat) (argv : Nat → Nat),
      marshalArguments c mem virt argv0 = some (argc, argv) ∧
      argc = leadingArguments c mem virt ∧
      argc ≤ c.ARGV_COUNT ∧
      (∀ i, i < argc →
        argv i = virt + i * c.ARGV_SIZE ∧ mem (virt + i * c.ARGV_SIZE) ≠ 0) ∧
      (argc = c.ARGV_COUNT ∨ mem (virt + argc * c.ARGV_SIZE) = 0) ∧
      (∀ i, argc ≤ i → argv i = argv0 i) := by
  obtain ⟨argc, argv, hrun, hcount, hle, hset, hstop, hsame⟩ :=
    argvLoop_spec c mem virt c.ARGV_COUNT 0 argv0 (by omega)
  refine ⟨argc, argv, ?_, ?_, hle, fun i hi => hset i (Nat.zero_le i) hi, hstop,
    fun i hi => hsame i (Or.inr hi)⟩
  · unfold marshalArguments
    simpa using hrun
  · rw [hcount, leadingArguments, List.range_eq_range']
    omega

/-! ## `refreshMounts`: the static entries -/

theorem appendMount_length (c : Consts) (pid : Int) (src : List Char) :
    ∀ mounts : List FileSystemMount, (appendMount c pid src mounts).length = mounts.length := by
  intro mounts
  induction mounts with
  | nil => rfl
  | cons e rest ih =>
    rw [appendMount]
    split
    · rfl
    · simp [ih]

theorem appendMount_keeps_nonempty (c : Consts) (pid : Int) (src : List Char) :
    ∀ (mounts : List FileSystemMount) (i : Nat) (e : FileSystemMount),
      mounts[i]? = some e → charAt e.path 0 ≠ NUL →
      (appendMount c pid src mounts)[i]? = some e := by
  intro mounts
  induction mounts with
  | nil => intro i e h; simp at h
  | cons x rest ih =>
    intro i e h hne
    rw [appendMount]
    cases i with
    | zero =>
      simp only [List.getElem?_cons_zero, Option.some.injEq] at h
      subst h
      rw [if_neg hne]
      simp
    | succ i =>
      simp only [List.getElem?_cons_succ] at h
      split
      · simpa using h
      · simpa using ih i e h hne

theorem appendMount_static (c : Consts) (pid : Int) (src : List Char)
    (a b : FileSystemMount) (rest : List FileSystemMount)
    (ha : charAt a.path 0 ≠ NUL) (hb : charAt b.path 0 ≠ NUL) :
    appendMount c pid src (a :: b :: rest) = a :: b :: appendMount c pid src rest := by
  rw [appendMount, if_neg ha, appendMount, if_neg hb]

theorem clearMounts_static (a b : FileSystemMount) (rest : List FileSystemMount) :
    clearMounts (a :: b :: rest) = a :: b :: List.replicate rest.length zeroMount := by
  simp [clearMounts]

theorem readdirLoop_static (c : Consts) (fs : FileSystem)
    (recurse : List Char → List FileSystemMount → Run)
    (a b : FileSystemMount) (n : Nat)
    (ha : charAt a.path 0 ≠ NUL) (hb : charAt b.path 0 ≠ NUL)
    (hrec : ∀ tmp rest, rest.length = n →
      ∃ rest', (recurse tmp (a :: b :: rest)).mounts = a :: b :: rest' ∧ rest'.length = n) :
    ∀ (dents : List Dirent) (rest : List FileSystemMount), rest.length = n →
      ∃ rest', (readdirLoop c fs recurse dents (a :: b :: rest)).mounts = a :: b :: rest' ∧
        rest'.length = n := by
  intro dents
  induction dents with
  | nil => intro rest hlen; exact ⟨rest, rfl, hlen⟩
  | cons dent dents ih =>
    intro rest hlen
    rw [readdirLoop]
    cases htype : dent.d_type with
    | DT_DIR =>
      simp only
      by_cases hdot : charAt dent.d_name 0 ≠ '.'
      · rw [if_pos hdot]
        obtain ⟨rest', hrun, hlen'⟩ := hrec (snprintfMount c.PATH_MAX dent.d_name) rest hlen
        cases hr : recurse (snprintfMount c.PATH_MAX dent.d_name) (a :: b :: rest) with
        | done ms =>
          rw [hr] at hrun
          simp only [Run.mounts] at hrun
          subst hrun
          exact ih rest' hlen'
        | outOfFuel ms =>
          rw [hr] at hrun
          exact ⟨rest', hrun, hlen'⟩
      · rw [if_neg hdot]
        exact ih rest hlen
    | DT_REG =>
      simp only
      cases hopen : fs.openFile (snprintfMount c.PATH_MAX dent.d_name) with
      | none => exact ih rest hlen
      | some content =>
        simp only
        split
        · rw [appendMount_static c _ _ a b rest ha hb]
          exact ih _ (by rw [appendMount_length, hlen])
        · exact ih rest hlen
    | DT_OTHER => exact ih rest hlen

theorem refreshMounts_static (c : Consts) (fs : FileSystem) (pid : Nat)
    (a b : FileSystemMount) (n : Nat)
    (ha : charAt a.path 0 ≠ NUL) (hb : charAt b.path 0 ≠ NUL) :
    ∀ (fuel : Nat) (path : Option (List Char)) (rest : List FileSystemMount),
      rest.length = n →
      ∃ rest', (refreshMounts c fs pid fuel path (a :: b :: rest)).mounts = a :: b :: rest' ∧
        rest'.length = n := by
  intro fuel
  induction fuel with
  | zero => intro path rest hlen; exact ⟨rest, rfl, hlen⟩
  | succ fuel ih =>
    intro path rest hlen
    have hloop : ∀ (dents : List Dirent) (rest : List FileSystemMount), rest.length = n →
        ∃ rest', (readdirLoop c fs
          (fun tmp ms => refreshMounts c fs pid fuel (some tmp) ms) dents
          (a :: b :: rest)).mounts = a :: b :: rest' ∧ rest'.length = n :=
      readdirLoop_static c fs _ a b n ha hb (fun tmp rest hrest => ih (some tmp) rest hrest)
    cases path with
    | none =>
      rw [refreshMounts]
      by_cases hpid : pid = c.ROOTFS_PID ∨ pid = c.MOUNTFS_PID
      · rw [if_pos hpid]
        exact ⟨rest, rfl, hlen⟩
      · rw [if_neg hpid]
        simp only [clearMounts_static]
        cases hdir : fs.opendir "/mount".toList with
        | none => exact ⟨_, rfl, by simp [hlen]⟩
        | some dents => exact hloop dents _ (by simp [hlen])
    | some p =>
      rw [refreshMounts]
      by_cases hpid : pid = c.ROOTFS_PID ∨ pid = c.MOUNTFS_PID
      · rw [if_pos hpid]
        exact ⟨rest, rfl, hlen⟩
      · rw [if_neg hpid]
        simp only
        cases hdir : fs.opendir p with
        | none => exact ⟨rest, rfl, hlen⟩
        | some dents => exact hloop dents rest hlen

/-- C7. On a table whose slots 0 and 1 are non-empty, `refreshMounts` (any
filesystem, any caller, a NULL or a given path) leaves the entries `mounts[0]`
and `mounts[1]` as they were and the table at its size, at every point of the
run, returned or not: the clearing step rewrites only the slots from index 2
on, and the append step leaves every non-empty slot as it was. -/
theorem refreshMounts_keeps_static (c : Consts) (fs : FileSystem) (pid fuel : Nat)
    (path : Option (List Char)) (a b : FileSystemMount) (rest : List FileSystemMount)
    (ha : charAt a.path 0 ≠ NUL) (hb : charAt b.path 0 ≠ NUL) :
    (∃ rest', (refreshMounts c fs pid fuel path (a :: b :: rest)).mounts = a :: b :: rest' ∧
      rest'.length = rest.length) ∧
    clearMounts (a :: b :: rest) = a :: b :: List.replicate rest.length zeroMount ∧
    (∀ (newPid : Int) (src : List Char) (mounts : List FileSystemMount) (i : Nat)
      (e : FileSystemMount), mounts[i]? = some e → charAt e.path 0 ≠ NUL →
      (appendMount c newPid src mounts)[i]? = some e) :=
  ⟨refreshMounts_static c fs pid a b rest.length ha hb fuel path rest rfl,
    clearMounts_static a b rest,
    fun newPid src mounts i e h hne => appendMount_keeps_nonempty c newPid src mounts i e h hne⟩

/-- C7 on the table `setupMappings` builds and the tree with the file
`/mount/usb`: the two static entries stay, the file takes slot 2. -/
theorem refreshMounts_keeps_static_witness :
    (charAt (mountfsEntry smallConsts).path 0 ≠ NUL ∧
      charAt (rootfsEntry smallConsts).path 0 ≠ NUL) ∧
    (∃ rest', (refreshMounts smallConsts (treeFS flatTree) 5 3 none
        (mountfsEntry smallConsts :: rootfsEntry smallConsts :: [zeroMount, zeroMount])).mounts =
        mountfsEntry smallConsts :: rootfsEntry smallConsts :: rest' ∧
      rest'.length = [zeroMount, zeroMount].length) ∧
    (refreshMounts smallConsts (treeFS flatTree) 5 3 none
        (mountfsEntry smallConsts :: rootfsEntry smallConsts :: [zeroMount, zeroMount])) =
      Run.done [mountfsEntry smallConsts, rootfsEntry smallConsts,
        { path := "/usb".toList, procID := 42, options := 0 }, zeroMount] :=
  ⟨⟨by decide, by decide⟩,
    (refreshMounts_keeps_static smallConsts (treeFS flatTree) 5 3 none
      (mountfsEntry smallConsts) (rootfsEntry smallConsts) [zeroMount, zeroMount]
      (by decide) (by decide)).1,
    by decide⟩

/-! ## `refreshMounts`: an empty announcement tree -/

theorem mountfsEntry_nonempty (c : Consts) : charAt (mountfsEntry c).path 0 ≠ NUL :=
  slash_ne_nul

theorem rootfsEntry_nonempty (c : Consts) : charAt (rootfsEntry c).path 0 ≠ NUL :=
  slash_ne_nul

theorem setupMounts_eq (c : Consts) (hmax : 2 ≤ c.FILESYSTEM_MAXMOUNTS)
    (hpath : 7 ≤ c.PATH_MAX) : setupMounts c = staticTable c := by
  obtain ⟨n, hn⟩ : ∃ n, c.FILESYSTEM_MAXMOUNTS = n + 2 := ⟨c.FILESYSTEM_MAXMOUNTS - 2, by omega⟩
  have h0 : strlcpy "/mount".toList c.PATH_MAX = "/mount".toList := by
    unfold strlcpy
    rw [show cstr "/mount".toList = "/mount".toList from by decide]
    exact List.take_of_length_le (by simp; omega)
  have h1 : strlcpy "/".toList c.PATH_MAX = "/".toList := by
    unfold strlcpy
    rw [show cstr "/".toList = "/".toList from by decide]
    exact List.take_of_length_le (by simp; omega)
  unfold setupMounts staticTable mountfsEntry rootfsEntry
  rw [h0, h1, hn]
  rfl

theorem refreshMounts_server (c : Consts) (fs : FileSystem) (pid : Nat)
    (hpid : pid = c.ROOTFS_PID ∨ pid = c.MOUNTFS_PID) (fuel : Nat)
    (path : Option (List Char)) (mounts : List FileSystemMount) :
    refreshMounts c fs pid (fuel + 1) path mounts = .done mounts := by
  cases path with
  | none => rw [refreshMounts, if_pos hpid]
  | some p => rw [refreshMounts, if_pos hpid]

theorem reachable_inv (c : Consts) (pid : Nat) (hmax : 2 ≤ c.FILESYSTEM_MAXMOUNTS)
    (hpath : 7 ≤ c.PATH_MAX) (mounts : List FileSystemMount)
    (hreach : Reachable c pid mounts) :
    (∃ rest, mounts = mountfsEntry c :: rootfsEntry c :: rest ∧
      rest.length = c.FILESYSTEM_MAXMOUNTS - 2) ∧
    ((pid = c.ROOTFS_PID ∨ pid = c.MOUNTFS_PID) → mounts = staticTable c) := by
  induction hreach with
  | setup =>
    rw [setupMounts_eq c hmax hpath]
    exact ⟨⟨_, rfl, by simp⟩, fun _ => rfl⟩
  | refresh fs fuel path _ hrun ih =>
    obtain ⟨⟨rest, hrest, hlen⟩, hserver⟩ := ih
    constructor
    · have hkeep := refreshMounts_static c fs pid (mountfsEntry c) (rootfsEntry c)
        (c.FILESYSTEM_MAXMOUNTS - 2) (mountfsEntry_nonempty c) (rootfsEntry_nonempty c)
        fuel path rest hlen
      rw [← hrest, hrun] at hkeep
      exact hkeep
    · intro hpid
      cases fuel with
      | zero =>
        cases path <;> simp [refreshMounts] at hrun
      | succ fuel =>
        rw [refreshMounts_server c fs pid hpid] at hrun
        injection hrun with hrun
        rw [← hrun]
        exact hserver hpid

theorem readdirLoop_dots (c : Consts) (fs : FileSystem)
    (recurse : List Char → List FileSystemMount → Run) :
    ∀ (dents : List Dirent) (mounts : List FileSystemMount),
      (∀ d ∈ dents, d.d_type = DType.DT_DIR ∧ charAt d.d_name 0 = '.') →
      readdirLoop c fs recurse dents mounts = .done mounts := by
  intro dents
  induction dents with
  | nil => intro mounts _; rfl
  | cons d dents ih =>
    intro mounts h
    obtain ⟨htype, hdot⟩ := h d (List.mem_cons_self _ _)
    rw [readdirLoop, htype]
    simp only [ne_eq, hdot, not_true_eq_false, if_false]
    exact ih mounts (fun d' hd' => h d' (List.mem_cons_of_mem _ hd'))

/-- C6. From every table a process can reach from `setupMappings` through
returning calls of `refreshMounts`, and for every process id, a top-level
`refreshMounts()` over an announcement tree that cannot be opened or brings no
entry returns and leaves exactly the two static entries: slot 0 is the
`/mount` mount, slot 1 the `/` mount, and every slot from index 2 on has an
empty path. -/
theorem refreshMounts_empty_tree (c : Consts) (fs : FileSystem) (pid : Nat)
    (mounts : List FileSystemMount) (fuel : Nat)
    (hmax : 2 ≤ c.FILESYSTEM_MAXMOUNTS) (hpath : 7 ≤ c.PATH_MAX)
    (hreach : Reachable c pid mounts) (hempty : NoAnnouncements fs) :
    refreshMounts c fs pid (fuel + 1) none mounts = .done (staticTable c) ∧
    (staticTable c).length = c.FILESYSTEM_MAXMOUNTS ∧
    (staticTable c)[0]? = some (mountfsEntry c) ∧
    (staticTable c)[1]? = some (rootfsEntry c) ∧
    (∀ (i : Nat) (e : FileSystemMount), 2 ≤ i → (staticTable c)[i]? = some e →
      e.path = [] ∧ charAt e.path 0 = NUL) := by
  obtain ⟨⟨rest, hrest, hlen⟩, hserver⟩ := reachable_inv c pid hmax hpath mounts hreach
  refine ⟨?_, by simp [staticTable]; omega, by simp [staticTable], by simp [staticTable], ?_⟩
  · by_cases hpid : pid = c.ROOTFS_PID ∨ pid = c.MOUNTFS_PID
    · rw [refreshMounts_server c fs pid hpid, hserver hpid]
    · rw [refreshMounts, if_neg hpid, hrest]
      simp only [clearMounts_static, hlen]
      unfold NoAnnouncements at hempty
      cases hdir : fs.opendir "/mount".toList with
      | none => rfl
      | some dents =>
        rw [hdir] at hempty
        exact readdirLoop_dots c fs _ dents _ hempty
  · intro i e hi he
    obtain ⟨k, rfl⟩ : ∃ k, i = k + 2 := ⟨i - 2, by omega⟩
    simp only [staticTable, List.getElem?_cons_succ] at he
    have hmem := List.getElem?_mem he
    rw [List.eq_of_mem_replicate hmem]
    exact ⟨rfl, rfl⟩

/-- C6 on a table reached by one refresh that found `/mount/usb`, followed by
a refresh over the empty tree. -/
theorem refreshMounts_empty_tree_witness :
    refreshMounts smallConsts (treeFS emptyTree) 5 (0 + 1) none
        [mountfsEntry smallConsts, rootfsEntry smallConsts,
          { path := "/usb".toList, procID := 42, options := 0 }, zeroMount] =
      .done (staticTable smallConsts) :=
  (refreshMounts_empty_tree smallConsts (treeFS emptyTree) 5
    [mountfsEntry smallConsts, rootfsEntry smallConsts,
      { path := "/usb".toList, procID := 42, options := 0 }, zeroMount] 0
    (by decide) (by decide)
    (Reachable.refresh (treeFS flatTree) 3 none Reachable.setup (by decide))
    (by
      unfold NoAnnouncements
      rw [show (treeFS emptyTree).opendir "/mount".toList = some [] from by decide]
      intro d hd
      cases hd)).1

/-! ## `refreshMounts`: announcement files below the top directory -/

/-- C2 on its own scenario. The tree holds the one file `/mount/usb/sda1` with
content `42`. Walking `/mount/usb`, the code formats the name of the entry as
`/mount/sda1`, which cannot be opened, so the call returns with the two static
entries only and no entry `/usb/sda1`. -/
theorem refreshMounts_nested_file :
    (treeFS scenarioTree).openFile "/mount/usb/sda1".toList = some "42".toList ∧
    (treeFS scenarioTree).opendir "/mount/usb".toList =
      some [{ d_name := "sda1".toList, d_type := DType.DT_REG }] ∧
    snprintfMount sampleConsts.PATH_MAX "sda1".toList = "/mount/sda1".toList ∧
    (treeFS scenarioTree).openFile "/mount/sda1".toList = none ∧
    (∀ fuel : Nat, refreshMounts sampleConsts (treeFS scenarioTree) 5 (fuel + 2) none
      (setupMounts sampleConsts) = .done (staticTable sampleConsts)) ∧
    (∀ e ∈ staticTable sampleConsts, e.path ≠ "/usb/sda1".toList) :=
  ⟨by decide, by decide, by decide, by decide, fun _ => rfl, by decide⟩

theorem cycle_inner (fuel : Nat) :
    ∀ mounts : List FileSystemMount,
      refreshMounts sampleConsts (treeFS cycleTree) 5 fuel (some "/mount/a".toList) mounts =
        .outOfFuel mounts := by
  induction fuel with
  | zero => intro mounts; rfl
  | succ fuel ih =>
    intro mounts
    have hstep : refreshMounts sampleConsts (treeFS cycleTree) 5 (fuel + 1)
        (some "/mount/a".toList) mounts =
        (match refreshMounts sampleConsts (treeFS cycleTree) 5 fuel
            (some "/mount/a".toList) mounts with
          | .done m => .done m
          | .outOfFuel m => .outOfFuel m) := rfl
    rw [hstep, ih]

/-- C5 on a tree with fifteen announcement files at the top, more than the
fourteen dynamic slots, followed by the directory `a` that holds a directory
`a`. The table fills with the first fourteen files, but the walk of `/mount/a`
formats its entry `a` as `/mount/a` again and re-enters the same directory:
whatever the depth bound, the call has not returned. -/
theorem refreshMounts_cycle_never_returns :
    (∀ fuel : Nat, (refreshMounts sampleConsts (treeFS cycleTree) 5 fuel none
      (setupMounts sampleConsts)).returned = false) ∧
    (∀ fuel : Nat, (refreshMounts sampleConsts (treeFS cycleTree) 5 (fuel + 1) none
      (setupMounts sampleConsts)).mounts =
        mountfsEntry sampleConsts :: rootfsEntry sampleConsts ::
          (List.range 14).map (fun i => announcedMount (i + 1))) := by
  have hstep : ∀ fuel : Nat, refreshMounts sampleConsts (treeFS cycleTree) 5 (fuel + 1) none
      (setupMounts sampleConsts) =
      (match refreshMounts sampleConsts (treeFS cycleTree) 5 fuel (some "/mount/a".toList)
          (mountfsEntry sampleConsts :: rootfsEntry sampleConsts ::
            (List.range 14).map (fun i => announcedMount (i + 1))) with
        | .done m => .done m
        | .outOfFuel m => .outOfFuel m) := fun _ => rfl
  constructor
  · intro fuel
    cases fuel with
    | zero => rfl
    | succ fuel => rw [hstep, cycle_inner]; rfl
  · intro fuel
    rw [hstep, cycle_inner]
    rfl

/-! ## `findMount` on relative paths -/

theorem announced_path_head (size : Nat) (name : List Char) :
    charAt (strlcpy ((snprintfMount size name).drop 6) size) 0 = NUL ∨
      charAt (strlcpy ((snprintfMount size name).drop 6) size) 0 = '/' := by
  have hshape : (snprintfMount size name).drop 6 = [] ∨
      ∃ r, (snprintfMount size name).drop 6 = '/' :: r := by
    unfold snprintfMount
    have hlit : "/mount/".toList ++ cstr name =
        '/' :: 'm' :: 'o' :: 'u' :: 'n' :: 't' :: '/' :: cstr name := rfl
    rw [hlit]
    rcases size - 1 with _ | _ | _ | _ | _ | _ | _ | k
    · exact Or.inl rfl
    · exact Or.inl rfl
    · exact Or.inl rfl
    · exact Or.inl rfl
    · exact Or.inl rfl
    · exact Or.inl rfl
    · exact Or.inl rfl
    · exact Or.inr ⟨(cstr name).take k, rfl⟩
  rcases hshape with h | ⟨r, h⟩
  · left
    rw [h]
    unfold strlcpy
    rw [cstr_nil, List.take_nil]
    rfl
  · rw [h]
    unfold strlcpy
    rw [cstr_cons, if_neg slash_ne_nul]
    cases size - 1 with
    | zero => left; rfl
    | succ k => right; rfl

theorem appendMount_slashLed (c : Consts) (pid : Int) (src : List Char)
    (hsrc : charAt (strlcpy src c.PATH_MAX) 0 = NUL ∨ charAt (strlcpy src c.PATH_MAX) 0 = '/') :
    ∀ mounts : List FileSystemMount, SlashLed mounts →
      SlashLed (appendMount c pid src mounts) := by
  intro mounts
  induction mounts with
  | nil => intro h; exact h
  | cons x rest ih =>
    intro h
    have hrest : SlashLed rest := fun e he => h e (List.mem_cons_of_mem _ he)
    rw [appendMount]
    split
    · intro e he
      rcases List.mem_cons.1 he with he | he
      · rw [he]; exact hsrc
      · exact hrest e he
    · intro e he
      rcases List.mem_cons.1 he with he | he
      · rw [he]; exact h x (List.mem_cons_self _ _)
      · exact ih hrest e he

theorem clearMounts_slashLed (mounts : List FileSystemMount) (h : SlashLed mounts) :
    SlashLed (clearMounts mounts) := by
  intro e he
  unfold clearMounts at he
  rcases List.mem_append.1 he with he | he
  · exact h e (List.mem_of_mem_take he)
  · rw [List.eq_of_mem_replicate he]
    exact Or.inl rfl

theorem readdirLoop_slashLed (c : Consts) (fs : FileSystem)
    (recurse : List Char → List FileSystemMount → Run)
    (hrec : ∀ tmp mounts, SlashLed mounts → SlashLed (recurse tmp mounts).mounts) :
    ∀ (dents : List Dirent) (mounts : List FileSystemMount), SlashLed mounts →
      SlashLed (readdirLoop c fs recurse dents mounts).mounts := by
  intro dents
  induction dents with
  | nil => intro mounts h; exact h
  | cons dent dents ih =>
    intro mounts h
    rw [readdirLoop]
    cases htype : dent.d_type with
    | DT_DIR =>
      simp only
      by_cases hdot : charAt dent.d_name 0 ≠ '.'
      · rw [if_pos hdot]
        have hstep := hrec (snprintfMount c.PATH_MAX dent.d_name) mounts h
        cases hr : recurse (snprintfMount c.PATH_MAX dent.d_name) mounts with
        | done ms =>
          rw [hr] at hstep
          exact ih ms hstep
        | outOfFuel ms =>
          rw [hr] at hstep
          exact hstep
      · rw [if_neg hdot]
        exact ih mounts h
    | DT_REG =>
      simp only
      cases hopen : fs.openFile (snprintfMount c.PATH_MAX dent.d_name) with
      | none => exact ih mounts h
      | some content =>
        simp only
        split
        · exact ih _ (appendMount_slashLed c _ _ (announced_path_head c.PATH_MAX dent.d_name)
            mounts h)
        · exact ih mounts h
    | DT_OTHER => exact ih mounts h

theorem refreshMounts_slashLed (c : Consts) (fs : FileSystem) (pid : Nat) :
    ∀ (fuel : Nat) (path : Option (List Char)) (mounts : List FileSystemMount),
      SlashLed mounts → SlashLed (refreshMounts c fs pid fuel path mounts).mounts := by
  intro fuel
  induction fuel with
  | zero => intro path mounts h; exact h
  | succ fuel ih =>
    intro path mounts h
    have hloop : ∀ (dents : List Dirent) (mounts : List FileSystemMount), SlashLed mounts →
        SlashLed (readdirLoop c fs
          (fun tmp ms => refreshMounts c fs pid fuel (some tmp) ms) dents mounts).mounts :=
      readdirLoop_slashLed c fs _ (fun tmp ms hms => ih (some tmp) ms hms)
    cases path with
    | none =>
      rw [refreshMounts]
      by_cases hpid : pid = c.ROOTFS_PID ∨ pid = c.MOUNTFS_PID
      · rw [if_pos hpid]
        exact h
      · rw [if_neg hpid]
        simp only
        cases hdir : fs.opendir "/mount".toList with
        | none => exact clearMounts_slashLed mounts h
        | some dents => exact hloop dents _ (clearMounts_slashLed mounts h)
    | some p =>
      rw [refreshMounts]
      by_cases hpid : pid = c.ROOTFS_PID ∨ pid = c.MOUNTFS_PID
      · rw [if_pos hpid]
        exact h
      · rw [if_neg hpid]
        simp only
        cases hdir : fs.opendir p with
        | none => exact h
        | some dents => exact hloop dents mounts h

theorem staticTable_slashLed (c : Consts) : SlashLed (staticTable c) := by
  intro e he
  unfold staticTable at he
  rcases List.mem_cons.1 he with he | he
  · rw [he]; exact Or.inr rfl
  · rcases List.mem_cons.1 he with he | he
    · rw [he]; exact Or.inr rfl
    · rw [List.eq_of_mem_replicate he]
      exact Or.inl rfl

theorem reachable_slashLed (c : Consts) (pid : Nat) (hmax : 2 ≤ c.FILESYSTEM_MAXMOUNTS)
    (hpath : 8 ≤ c.PATH_MAX) (mounts : List FileSystemMount)
    (hreach : Reachable c pid mounts) : SlashLed mounts := by
  induction hreach with
  | setup =>
    rw [setupMounts_eq c hmax (by omega)]
    exact staticTable_slashLed c
  | refresh fs fuel path _ hrun ih =>
    have hkeep := refreshMounts_slashLed c fs pid fuel path _ ih
    rw [hrun] at hkeep
    exact hkeep

/-- C3. For every current directory `d` and every relative path `p`,
`findMount(p)` returns the same process id as `findMount` applied to the
concatenation of `d`, a slash and `p`: on every mount table the process can
hold (built by `setupMappings`, rebuilt by `refreshMounts`), on every table
whose stored paths are empty or start with a slash, as those tables and the
table of the scenario are, and, when `d` is empty or starts with a slash, on
every table whatsoever. -/
theorem findMount_relative (c : Consts) (currentDirectory path : List Char)
    (hmax : 2 ≤ c.FILESYSTEM_MAXMOUNTS) (hpath : 8 ≤ c.PATH_MAX)
    (hrel : charAt path 0 ≠ '/') :
    (∀ (pid : Nat) (mounts : List FileSystemMount), Reachable c pid mounts →
      findMount c mounts currentDirectory path =
        findMount c mounts currentDirectory (cstr currentDirectory ++ '/' :: cstr path)) ∧
    (∀ mounts : List FileSystemMount, SlashLed mounts →
      findMount c mounts currentDirectory path =
        findMount c mounts currentDirectory (cstr currentDirectory ++ '/' :: cstr path)) ∧
    (∀ mounts : List FileSystemMount,
      charAt currentDirectory 0 = NUL ∨ charAt currentDirectory 0 = '/' →
      findMount c mounts currentDirectory path =
        findMount c mounts currentDirectory (cstr currentDirectory ++ '/' :: cstr path)) := by
  refine ⟨?_, ?_, ?_⟩
  · intro pid mounts hreach
    exact findMount_joined_of_heads c mounts currentDirectory path hrel
      (Or.inr (Or.inr (reachable_slashLed c pid hmax hpath mounts hreach)))
  · intro mounts hled
    exact findMount_joined_of_heads c mounts currentDirectory path hrel (Or.inr (Or.inr hled))
  · intro mounts hcwd
    rcases hcwd with h | h
    · exact findMount_joined_of_heads c mounts currentDirectory path hrel (Or.inl h)
    · exact findMount_joined_of_heads c mounts currentDirectory path hrel (Or.inr (Or.inl h))

/-- C3 with the current directory `/mnt` and the path `data/x`: on a table
reached by a refresh that found `/mount/usb`, and on the table of the
scenario, `/` and `/mnt/data`, where both calls return process 7. -/
theorem findMount_relative_witness :
    (findMount smallConsts
        [mountfsEntry smallConsts, rootfsEntry smallConsts,
          { path := "/usb".toList, procID := 42, options := 0 }, zeroMount]
        "/mnt".toList "data/x".toList =
      findMount smallConsts
        [mountfsEntry smallConsts, rootfsEntry smallConsts,
          { path := "/usb".toList, procID := 42, options := 0 }, zeroMount]
        "/mnt".toList (cstr "/mnt".toList ++ '/' :: cstr "data/x".toList)) ∧
    (findMount smallConsts scenarioMounts "/mnt".toList "data/x".toList =
      findMount smallConsts scenarioMounts "/mnt".toList
        (cstr "/mnt".toList ++ '/' :: cstr "data/x".toList)) ∧
    findMount smallConsts scenarioMounts "/mnt".toList "data/x".toList = 7 ∧
    findMount smallConsts scenarioMounts "/mnt".toList
      (cstr "/mnt".toList ++ '/' :: cstr "data/x".toList) = 7 :=
  ⟨(findMount_relative smallConsts "/mnt".toList "data/x".toList
      (by decide) (by decide) (by decide)).1 5 _
      (Reachable.refresh (treeFS flatTree) 3 none Reachable.setup (by decide)),
    (findMount_relative smallConsts "/mnt".toList "data/x".toList
      (by decide) (by decide) (by decide)).2.1 scenarioMounts (by unfold SlashLed; decide),
    by decide, by decide⟩

end FreeNOS
